import Mathlib

set_option maxHeartbeats 1000000

/-!
Shallow embedding of the negative-to-positive film conversion pipeline of
`app/utils/imageProcessing.ts` (duplicated in the split modules
`adjustments` / `colorUtils` / `negativeConverter`).

Modelling conventions:
* JS scalar values (option fields, intermediate channel values) are exact
  rationals; the transcendental curve helpers (`Math.pow`, `Math.exp`) are
  modelled over the reals, returning integers after `Math.round` and the
  explicit clamp of the source.
* A pixel buffer is a total function from byte index to integer together
  with its width and height; `ImageData` read-back out of canvas bounds
  yields transparent black, i.e. `0`.
* `Math.round x` is `⌊x + 1/2⌋`, which is Mathlib's `round`.
* Assignments into a `Uint8ClampedArray` follow the `ToUint8Clamp`
  operation of the JS spec: clamp to `[0, 255]`, round, ties to even.
-/

/-- HSL triple as returned by `rgbToHsl` (h in degrees, s and l in [0,1]). -/
structure HSL where
  h : ℚ
  s : ℚ
  l : ℚ
  deriving DecidableEq

/-- Integer RGB triple as returned by `hslToRgb`. -/
structure RGBi where
  r : ℤ
  g : ℤ
  b : ℤ
  deriving DecidableEq

/-- Scalar RGB triple used for the film base color. -/
structure RGBq where
  r : ℚ
  g : ℚ
  b : ℚ
  deriving DecidableEq

/-- The per-channel curve strengths of `options.channelAdjustments`. -/
structure ChannelAdjustments where
  r : ℚ
  g : ℚ
  b : ℚ
  deriving DecidableEq

/-- The `options.cyanAdjustment` record. -/
structure CyanAdjustment where
  hue : ℚ
  saturation : ℚ
  lightness : ℚ
  deriving DecidableEq

/-- `NegativeConversionOptions`, with the default values applied by the
destructuring at the top of `convertNegativeToPositive`. -/
structure NegativeConversionOptions where
  filmBaseColor : Option RGBq := none
  baseSubtractionOpacity : ℚ := 0.8
  channelAdjustments : ChannelAdjustments := ⟨1, 0.8, 0.7⟩
  useBorderSampling : Bool := false
  contrastBoost : ℚ := 1.1
  cyanAdjustment : CyanAdjustment := ⟨10, 0.8, 0.1⟩

/-- A raw RGBA pixel buffer: interleaved R,G,B,A bytes, row-major. -/
structure ImageData where
  width : ℕ
  height : ℕ
  data : ℕ → ℤ

/-- `rgbToHsl` of the source: normalize the channels, lightness is the mean
of max and min, hue by max-channel case split tried in source order
(r, then g, then b), achromatic input gives h = 0, s = 0. -/
def rgbToHsl (r g b : ℚ) : HSL :=
  let r' := r / 255
  let g' := g / 255
  let b' := b / 255
  let mx := max r' (max g' b')
  let mn := min r' (min g' b')
  let l := (mx + mn) / 2
  if mx = mn then ⟨0, 0, l⟩
  else
    let d := mx - mn
    let s := if l > 1/2 then d / (2 - mx - mn) else d / (mx + mn)
    let h6 :=
      if mx = r' then (g' - b') / d + (if g' < b' then 6 else 0)
      else if mx = g' then (b' - r') / d + 2
      else (r' - g') / d + 4
    ⟨h6 * 60, s, l⟩

/-- The `hue2rgb` helper nested in `hslToRgb`: wrap `t` into range by ±1,
then the four hue sectors. -/
def hue2rgb (p q t : ℚ) : ℚ :=
  let t1 := if t < 0 then t + 1 else t
  let t2 := if t1 > 1 then t1 - 1 else t1
  if t2 < 1/6 then p + (q - p) * 6 * t2
  else if t2 < 1/2 then q
  else if t2 < 2/3 then p + (q - p) * (2/3 - t2) * 6
  else p

/-- `hslToRgb` of the source: achromatic shortcut when s = 0, otherwise the
canonical piecewise conversion; channels are rounded, with no clamp. -/
def hslToRgb (h s l : ℚ) : RGBi :=
  if s = 0 then ⟨round (l * 255), round (l * 255), round (l * 255)⟩
  else
    let q := if l < 1/2 then l * (1 + s) else l + s - l * s
    let p := 2 * l - q
    ⟨round (hue2rgb p q (h / 360 + 1/3) * 255),
      round (hue2rgb p q (h / 360) * 255),
      round (hue2rgb p q (h / 360 - 1/3) * 255)⟩

/-- The `sigmoid` helper nested in `applySCurve`. -/
noncomputable def sigmoid (x : ℝ) : ℝ := 1 / (1 + Real.exp (-x))

/-- `adjustChannelCurve` of the source: normalize to [0,1], power curve with
the 0.1 denominator floor below neutral strength, rescale, round, clamp. -/
noncomputable def adjustChannelCurve (value strength : ℚ) : ℤ :=
  let normalized : ℝ := (value : ℝ) / 255
  let adjusted : ℝ :=
    if strength = 1 then normalized
    else if strength < 1 then normalized ^ (1 / (0.9 * (strength : ℝ) + 0.1))
    else normalized ^ (1 / (strength : ℝ))
  max 0 (min 255 (round (adjusted * 255)))

/-- `applySCurve` of the source: normalize to [-1,1], dampen the strength,
sigmoid, rescale, round, clamp. -/
noncomputable def applySCurve (value strength : ℚ) : ℤ :=
  let normalized : ℝ := (value : ℝ) / 127.5 - 1
  let dampenedStrength : ℝ := ((strength : ℝ) - 1) * 3 + 1
  let adjusted : ℝ := sigmoid (normalized * dampenedStrength) * 2 - 1
  max 0 (min 255 (round ((adjusted + 1) * 127.5)))

/-- The `ToUint8Clamp` conversion performed by an assignment into a
`Uint8ClampedArray`: clamp to [0,255], round to nearest, ties to even. -/
def toUint8Clamp (x : ℚ) : ℤ :=
  if x ≤ 0 then 0
  else if 255 ≤ x then 255
  else if x - ⌊x⌋ < 1/2 then ⌊x⌋
  else if 1/2 < x - ⌊x⌋ then ⌊x⌋ + 1
  else if 2 ∣ ⌊x⌋ then ⌊x⌋
  else ⌊x⌋ + 1

/-- The (y, x, c) triples visited by the two nested loops of
`applyNoiseReduction` (y over [1, height-2] outermost, x over
[1, width-2], c over the three color channels innermost). -/
def interiorTriples (w h : ℕ) : List (ℕ × ℕ × ℕ) :=
  ((List.range (h - 2)).map (· + 1)) ×ˢ (((List.range (w - 2)).map (· + 1)) ×ˢ List.range 3)

/-- One iteration of the innermost loop body of `applyNoiseReduction`:
average the 4-connected neighbors read from the `original` snapshot, blend
with the current value, round, and store (the store clamps to [0,255]
because the array is a `Uint8ClampedArray`). -/
def nrStep (original : ℕ → ℤ) (strength : ℚ) (w : ℕ) (data : ℕ → ℤ)
    (t : ℕ × ℕ × ℕ) : ℕ → ℤ :=
  let idx := (t.1 * w + t.2.1) * 4
  let c := t.2.2
  let avg : ℚ := ((original (idx - w * 4 + c) : ℚ) + (original (idx + w * 4 + c) : ℚ)
    + (original (idx - 4 + c) : ℚ) + (original (idx + 4 + c) : ℚ)) / 4
  Function.update data (idx + c)
    (max 0 (min 255 (round ((1 - strength) * (data (idx + c) : ℚ) + strength * avg))))

/-- `applyNoiseReduction` of the source: snapshot the buffer, then for every
interior pixel and color channel blend the pixel with the average of its
4-connected neighbors taken from the snapshot. -/
def applyNoiseReduction (data : ℕ → ℤ) (width height : ℕ) (strength : ℚ) : ℕ → ℤ :=
  (interiorTriples width height).foldl (nrStep data strength width) data

/-- A single-pixel `ctx.getImageData(x, y, 1, 1)` read used by border
sampling; reads outside the canvas yield transparent black. -/
def readPixel (img : ImageData) (x y k : ℕ) : ℤ :=
  if x < img.width ∧ y < img.height then img.data (4 * (y * img.width + x) + k) else 0

/-- The values taken by a loop `for (i = 0; i < bound; i += 10)`. -/
def strideIdx (bound : ℕ) : List ℕ := (List.range ((bound + 9) / 10)).map (· * 10)

/-- The sample coordinates visited by the border-sampling loops, edges in
source order top, bottom, left, right. The source's inner loop bound is
`edge.x === edge.y ? height : width`, which compares two distinct function
objects and is therefore always false: every edge, including the vertical
ones, iterates `i` up to the width. -/
def edgeSamplePoints (w h : ℕ) : List (ℕ × ℕ) :=
  (strideIdx w).map (fun i => (i, 0)) ++ (strideIdx w).map (fun i => (i, h - 1))
    ++ (strideIdx w).map (fun i => (0, i)) ++ (strideIdx w).map (fun i => (w - 1, i))

/-- One border-sampling step: accumulate the pixel unless the global
50-sample cap has been reached. State is (count, totalR, totalG, totalB). -/
def sampleStep (img : ImageData) (st : ℕ × ℤ × ℤ × ℤ) (pt : ℕ × ℕ) : ℕ × ℤ × ℤ × ℤ :=
  if st.1 < 50 then
    (st.1 + 1, st.2.1 + readPixel img pt.1 pt.2 0, st.2.2.1 + readPixel img pt.1 pt.2 1,
      st.2.2.2 + readPixel img pt.1 pt.2 2)
  else st

/-- The border-sampling accumulation over all four edges. -/
def borderSample (img : ImageData) : ℕ × ℤ × ℤ × ℤ :=
  (edgeSamplePoints img.width img.height).foldl (sampleStep img) (0, 0, 0, 0)

/-- Film-base color estimation of `convertNegativeToPositive`: an explicit
`options.filmBaseColor` wins; otherwise border sampling (if requested and
it collected at least one sample) yields the rounded per-channel average;
otherwise the default {220, 150, 130}. -/
def estimateFilmBase (img : ImageData) (options : NegativeConversionOptions) : RGBq :=
  match options.filmBaseColor with
  | some c => c
  | none =>
    if options.useBorderSampling then
      let st := borderSample img
      if 0 < st.1 then
        ⟨((round ((st.2.1 : ℚ) / st.1) : ℤ) : ℚ), ((round ((st.2.2.1 : ℚ) / st.1) : ℤ) : ℚ),
          ((round ((st.2.2.2 : ℚ) / st.1) : ℤ) : ℚ)⟩
      else ⟨220, 150, 130⟩
    else ⟨220, 150, 130⟩

/-- The `subtractAmount` helper of STEP 2: subtract the scaled inverse of
the base color and clamp to [0, 255]. -/
def subtractAmount (opacity color base : ℚ) : ℚ :=
  max 0 (min 255 (color - (255 - base) * opacity))

/-- STEPs 1 to 5 of the per-pixel loop of `convertNegativeToPositive`:
invert, subtract film base, per-channel curve (skipped on exact equality
with 1.0), contrast S-curve (likewise), then the gated cyan correction. -/
noncomputable def processPixel (options : NegativeConversionOptions) (base : RGBq)
    (pr pg pb : ℤ) : ℚ × ℚ × ℚ :=
  let r1 : ℚ := 255 - pr
  let g1 : ℚ := 255 - pg
  let b1 : ℚ := 255 - pb
  let r2 := subtractAmount options.baseSubtractionOpacity r1 base.r
  let g2 := subtractAmount options.baseSubtractionOpacity g1 base.g
  let b2 := subtractAmount options.baseSubtractionOpacity b1 base.b
  let r3 : ℚ := if options.channelAdjustments.r ≠ 1 then
      ((adjustChannelCurve r2 options.channelAdjustments.r : ℤ) : ℚ) else r2
  let g3 : ℚ := if options.channelAdjustments.g ≠ 1 then
      ((adjustChannelCurve g2 options.channelAdjustments.g : ℤ) : ℚ) else g2
  let b3 : ℚ := if options.channelAdjustments.b ≠ 1 then
      ((adjustChannelCurve b2 options.channelAdjustments.b : ℤ) : ℚ) else b2
  let r4 : ℚ := if options.contrastBoost ≠ 1 then
      ((applySCurve r3 options.contrastBoost : ℤ) : ℚ) else r3
  let g4 : ℚ := if options.contrastBoost ≠ 1 then
      ((applySCurve g3 options.contrastBoost : ℤ) : ℚ) else g3
  let b4 : ℚ := if options.contrastBoost ≠ 1 then
      ((applySCurve b3 options.contrastBoost : ℤ) : ℚ) else b3
  if g4 > r4 ∧ b4 > r4 ∧ |g4 - b4| < 50 then
    if (g4 + b4) / 2 > r4 * 1.3 ∧ g4 > 100 ∧ b4 > 100 then
      let hsl := rgbToHsl r4 g4 b4
      if 150 < hsl.h ∧ hsl.h < 210 then
        let cyanStrength := min 1 ((min g4 b4 - r4) / 100)
        let rgb := hslToRgb (hsl.h + options.cyanAdjustment.hue * cyanStrength)
          (hsl.s * (1 - (1 - options.cyanAdjustment.saturation) * cyanStrength))
          (hsl.l + options.cyanAdjustment.lightness * cyanStrength)
        ((rgb.r : ℚ), (rgb.g : ℚ), (rgb.b : ℚ))
      else (r4, g4, b4)
    else (r4, g4, b4)
  else (r4, g4, b4)

/-- The output buffer written by the per-pixel loop of
`convertNegativeToPositive`: for each byte index below the buffer length,
the three color bytes of a pixel receive the processed values and the
alpha byte is copied from the input (each store going through the
`Uint8ClampedArray` conversion); the `Uint8ClampedArray` is
zero-initialized beyond the loop. -/
noncomputable def convertOutputData (img : ImageData)
    (options : NegativeConversionOptions) (base : RGBq) : ℕ → ℤ := fun j =>
  if j < img.width * img.height * 4 then
    let p := j / 4
    let px := processPixel options base (img.data (4 * p))
      (img.data (4 * p + 1)) (img.data (4 * p + 2))
    if j % 4 = 0 then toUint8Clamp px.1
    else if j % 4 = 1 then toUint8Clamp px.2.1
    else if j % 4 = 2 then toUint8Clamp px.2.2
    else toUint8Clamp ((img.data j : ℤ) : ℚ)
  else 0

/-- `convertNegativeToPositive` of the source: estimate the film base, run
the per-pixel pipeline into a fresh output buffer (alpha copied through),
then run noise reduction once when both dimensions exceed 200. -/
noncomputable def convertNegativeToPositive (img : ImageData)
    (options : NegativeConversionOptions) : ImageData :=
  let filmBaseColor := estimateFilmBase img options
  let outputData := convertOutputData img options filmBaseColor
  let final := if 200 < img.width ∧ 200 < img.height then
      applyNoiseReduction outputData img.width img.height (1/2)
    else outputData
  ⟨img.width, img.height, final⟩

/-- Byte index j addresses one of the three color channels of an interior
pixel (not on the one-pixel border) of a w by h buffer. -/
def isInteriorColorIdx (w h j : ℕ) : Prop :=
  j % 4 < 3 ∧ 1 ≤ (j / 4) % w ∧ (j / 4) % w < w - 1 ∧ 1 ≤ (j / 4) / w ∧ (j / 4) / w < h - 1

/-- The 21 by 1 image whose pixels are all (100, 100, 100, 255). -/
def c3Image : ImageData := ⟨21, 1, fun j => if j % 4 = 3 then 255 else 100⟩

/-- The options of the C1 scenario: neutral channel adjustments, neutral
contrast boost, zero base-subtraction opacity; everything else default. -/
def c1Options : NegativeConversionOptions :=
  { channelAdjustments := ⟨1, 1, 1⟩, contrastBoost := 1, baseSubtractionOpacity := 0 }

/-- A single pixel (205, 55, 55, 255), whose inversion (50, 200, 200) is
classified cyan by the step-5 gates. -/
def c1Pixels : ℕ → ℤ := fun j => if j = 0 then 205 else if j = 3 then 255 else 55

/-! ### Generic helper lemmas -/

lemma round_eq_of_bounds {α : Type*} [LinearOrderedField α] [FloorRing α]
    (x : α) (n : ℤ) (h1 : (n : α) - 1/2 ≤ x) (h2 : x < (n : α) + 1/2) :
    round x = n := by
  rw [round_eq, Int.floor_eq_iff]
  constructor
  · linarith
  · push_cast
    linarith

lemma round_le_round {α : Type*} [LinearOrderedField α] [FloorRing α]
    {x y : α} (h : x ≤ y) : round x ≤ round y := by
  rw [round_eq, round_eq]
  exact Int.floor_le_floor (by linarith)

lemma round_nonneg {α : Type*} [LinearOrderedField α] [FloorRing α]
    {x : α} (h : 0 ≤ x) : 0 ≤ round x := by
  have := round_le_round h
  rwa [round_zero] at this

lemma round_le_of_le {α : Type*} [LinearOrderedField α] [FloorRing α]
    {x : α} {n : ℤ} (h : x ≤ (n : α)) : round x ≤ n := by
  have := round_le_round h
  rwa [round_intCast] at this

lemma toUint8Clamp_intCast (z : ℤ) (h0 : 0 ≤ z) (h1 : z ≤ 255) :
    toUint8Clamp ((z : ℚ)) = z := by
  unfold toUint8Clamp
  rcases eq_or_lt_of_le h0 with h | h
  · simp [← h]
  · have hz0 : ¬ ((z : ℚ) ≤ 0) := by exact_mod_cast not_le.2 h
    rcases eq_or_lt_of_le h1 with h' | h'
    · simp [h', hz0]
    · have hz255 : ¬ ((255 : ℚ) ≤ (z : ℚ)) := by exact_mod_cast not_le.2 h'
      have hfl : ⌊(z : ℚ)⌋ = z := Int.floor_intCast z
      rw [if_neg hz0, if_neg hz255, hfl]
      norm_num

/-! ### C6 : curve outputs stay in range -/

/-- C6: for every input value in [0,255] and strength in [0,2], both
`adjustChannelCurve` and `applySCurve` return a value in [0,255]; moreover
the power-curve denominator `0.9 * strength + 0.1` stays strictly positive
(the 0.1 floor that guards the singularity as strength approaches 0). -/
theorem c6_curve_outputs_in_range (v s : ℚ) (hv0 : 0 ≤ v) (hv1 : v ≤ 255)
    (hs0 : 0 ≤ s) (hs1 : s ≤ 2) :
    (0 ≤ adjustChannelCurve v s ∧ adjustChannelCurve v s ≤ 255) ∧
      (0 ≤ applySCurve v s ∧ applySCurve v s ≤ 255) ∧
      (0 : ℝ) < 0.9 * (s : ℝ) + 0.1 := by
  have hsR : (0 : ℝ) ≤ (s : ℝ) := by exact_mod_cast hs0
  refine ⟨⟨?_, ?_⟩, ⟨?_, ?_⟩, by nlinarith⟩
  · exact le_max_left _ _
  · exact max_le (by norm_num) (min_le_left _ _)
  · exact le_max_left _ _
  · exact max_le (by norm_num) (min_le_left _ _)

/-- Witness for C6 at value 100 and strength 1/2. -/
theorem c6_curve_outputs_in_range_witness :
    (0 ≤ adjustChannelCurve 100 (1/2) ∧ adjustChannelCurve 100 (1/2) ≤ 255) ∧
      (0 ≤ applySCurve 100 (1/2) ∧ applySCurve 100 (1/2) ≤ 255) ∧
      (0 : ℝ) < 0.9 * ((1/2 : ℚ) : ℝ) + 0.1 :=
  c6_curve_outputs_in_range 100 (1/2) (by norm_num) (by norm_num) (by norm_num) (by norm_num)

/-! ### C9 : zero samples fall back to the default base color -/

/-- C9: on a zero-width (hence zero-area) image border sampling collects
zero samples, and base-color estimation falls back to the default
{220, 150, 130} without dividing by the sample count; the estimator is a
total function, so no error is possible. -/
theorem c9_zero_samples_default (img : ImageData) (options : NegativeConversionOptions)
    (hw : img.width = 0) (hfb : options.filmBaseColor = none) :
    (borderSample img).1 = 0 ∧ estimateFilmBase img options = ⟨220, 150, 130⟩ := by
  have h1 : borderSample img = (0, 0, 0, 0) := by
    unfold borderSample edgeSamplePoints strideIdx
    rw [hw]
    rfl
  refine ⟨by rw [h1], ?_⟩
  unfold estimateFilmBase
  rw [hfb]
  cases hb : options.useBorderSampling <;> simp [hb, h1]

/-- Witness for C9 on a concrete 0 times 5 image. -/
theorem c9_zero_samples_default_witness :
    (borderSample ⟨0, 5, fun _ => 0⟩).1 = 0 ∧
      estimateFilmBase ⟨0, 5, fun _ => 0⟩ { useBorderSampling := true } = ⟨220, 150, 130⟩ :=
  c9_zero_samples_default ⟨0, 5, fun _ => 0⟩ { useBorderSampling := true } rfl rfl

/-! ### C3 : the border-sampling loop bound is always the width -/

/-- C3: on a 21 by 1 uniform (100,100,100) image, the estimator returns
(67, 67, 67), not (100, 100, 100): the inner loop bound
`edge.x === edge.y ? height : width` compares two distinct function
objects, so it is always false and the vertical edges iterate `i` up to
the width (not the height), reading out-of-bounds pixels as transparent
black, which drags the average down. -/
theorem c3_vertical_edges_iterate_width :
    estimateFilmBase c3Image { useBorderSampling := true } = ⟨67, 67, 67⟩ ∧
      ((67 : ℚ) ≠ 100) := by
  have hbs : borderSample c3Image = (12, 800, 800, 800) := by decide
  have h67 : round ((200 : ℚ) / 3) = 67 := round_eq_of_bounds _ 67 (by norm_num) (by norm_num)
  refine ⟨?_, by norm_num⟩
  unfold estimateFilmBase
  simp only [hbs]
  norm_num [h67]

/-! ### C2 : the S-curve at neutral strength is not the identity -/

lemma applySCurve_one (v : ℚ) :
    applySCurve v 1 =
      max 0 (min 255 (round ((255 : ℝ) / (1 + Real.exp (1 - (v : ℝ) / 127.5))))) := by
  have h1 : (((1 : ℚ) : ℝ) - 1) * 3 + 1 = 1 := by norm_num
  simp only [applySCurve, sigmoid, h1, mul_one]
  congr 3
  have h2 : -((v : ℝ) / 127.5 - 1) = 1 - (v : ℝ) / 127.5 := by ring
  rw [h2]
  have h3 : (0 : ℝ) < 1 + Real.exp (1 - (v : ℝ) / 127.5) := by positivity
  field_simp
  ring

lemma applySCurve_zero_one : applySCurve 0 1 = 69 := by
  rw [applySCurve_one]
  have e1 := Real.exp_one_gt_d9
  have e2 := Real.exp_one_lt_d9
  have h : (1 : ℝ) - ((0 : ℚ) : ℝ) / 127.5 = 1 := by norm_num
  rw [h]
  have hpos : (0 : ℝ) < 1 + Real.exp 1 := by positivity
  have hr : round ((255 : ℝ) / (1 + Real.exp 1)) = 69 := by
    apply round_eq_of_bounds
    · rw [le_div_iff hpos]
      push_cast
      nlinarith
    · rw [div_lt_iff hpos]
      push_cast
      nlinarith
  rw [hr]
  norm_num

lemma applySCurve_255_one : applySCurve 255 1 = 186 := by
  rw [applySCurve_one]
  have e1 := Real.exp_one_gt_d9
  have e2 := Real.exp_one_lt_d9
  have hE : (0 : ℝ) < Real.exp 1 := Real.exp_pos 1
  have h : (1 : ℝ) - ((255 : ℚ) : ℝ) / 127.5 = -1 := by norm_num
  rw [h, Real.exp_neg]
  have hkey : (255 : ℝ) / (1 + (Real.exp 1)⁻¹) = 255 * Real.exp 1 / (Real.exp 1 + 1) := by
    rw [div_eq_div_iff (by positivity) (by positivity)]
    field_simp
    ring
  rw [hkey]
  have hpos : (0 : ℝ) < Real.exp 1 + 1 := by positivity
  have hr : round ((255 : ℝ) * Real.exp 1 / (Real.exp 1 + 1)) = 186 := by
    apply round_eq_of_bounds
    · rw [le_div_iff hpos]
      push_cast
      nlinarith
    · rw [div_lt_iff hpos]
      push_cast
      nlinarith
  rw [hr]
  norm_num

lemma applySCurve_128_one : applySCurve 128 1 = 128 := by
  rw [applySCurve_one]
  have h : (1 : ℝ) - ((128 : ℚ) : ℝ) / 127.5 = -(1/255) := by norm_num
  rw [h]
  have ht1 : Real.exp (-(1/255)) ≤ 1 := by
    calc Real.exp (-(1/255)) ≤ Real.exp 0 := Real.exp_le_exp.2 (by norm_num)
    _ = 1 := Real.exp_zero
  have ht2 : 1 - 1/255 ≤ Real.exp (-(1/255) : ℝ) := by
    have := Real.add_one_le_exp (-(1/255) : ℝ)
    linarith
  have hpos : (0 : ℝ) < 1 + Real.exp (-(1/255)) := by positivity
  have hr : round ((255 : ℝ) / (1 + Real.exp (-(1/255)))) = 128 := by
    apply round_eq_of_bounds
    · rw [le_div_iff hpos]
      push_cast
      nlinarith
    · rw [div_lt_iff hpos]
      push_cast
      nlinarith
  rw [hr]
  norm_num

/-- C2 counterexample: at strength 1.0 the S-curve maps 0 to 69, which is
far outside any rounding tolerance of the identity. -/
theorem c2_counterexample : applySCurve 0 1 = 69 ∧ 1 < |applySCurve 0 1 - 0| := by
  refine ⟨applySCurve_zero_one, ?_⟩
  rw [applySCurve_zero_one]
  norm_num

/-- C2 (amended): at neutral strength 1.0 the dampened strength does reduce
to 1, but the resulting map `sigmoid(normalized) * 2 - 1` is not the
identity: it fixes the midpoint (128 maps to 128) while contracting the
extremes toward it (0 maps to 69 and 255 maps to 186). -/
theorem c2_scurve_neutral_not_identity :
    applySCurve 128 1 = 128 ∧ applySCurve 0 1 = 69 ∧ applySCurve 255 1 = 186 :=
  ⟨applySCurve_128_one, applySCurve_zero_one, applySCurve_255_one⟩

/-! ### C10 : strengths below 2/3 make the S-curve order reversing -/

lemma sigmoid_le_sigmoid {x y : ℝ} (h : x ≤ y) : sigmoid x ≤ sigmoid y := by
  unfold sigmoid
  have h1 : (0 : ℝ) < 1 + Real.exp (-y) := by positivity
  exact one_div_le_one_div_of_le h1 (add_le_add_left (Real.exp_le_exp.2 (neg_le_neg h)) 1)

/-- C10: for any strength below 2/3 the dampened strength
`(strength - 1) * 3 + 1` is negative, and `applySCurve` is monotonically
non-increasing in its value argument on [0, 255]. -/
theorem c10_scurve_antitone (s v1 v2 : ℚ) (hs0 : 0 ≤ s) (hs : s < 2/3)
    (h1 : 0 ≤ v1) (h12 : v1 ≤ v2) (h2 : v2 ≤ 255) :
    ((s : ℝ) - 1) * 3 + 1 < 0 ∧ applySCurve v2 s ≤ applySCurve v1 s := by
  have hsR : ((s : ℝ)) < 2/3 := by
    rw [show (2/3 : ℝ) = ((2/3 : ℚ) : ℝ) by norm_num]
    exact Rat.cast_lt.2 hs
  have hd : ((s : ℝ) - 1) * 3 + 1 < 0 := by linarith
  refine ⟨hd, ?_⟩
  have hvR : ((v1 : ℝ)) ≤ ((v2 : ℝ)) := by exact_mod_cast h12
  have hmul : ((v2 : ℝ)/127.5 - 1) * (((s : ℝ) - 1) * 3 + 1) ≤
      ((v1 : ℝ)/127.5 - 1) * (((s : ℝ) - 1) * 3 + 1) := by
    apply mul_le_mul_of_nonpos_right _ (le_of_lt hd)
    have h1275 : (127.5 : ℝ) = 255/2 := by norm_num
    rw [h1275]
    linarith
  have hsig := sigmoid_le_sigmoid hmul
  simp only [applySCurve]
  exact max_le_max (le_refl 0) (min_le_min (le_refl 255) (round_le_round (by nlinarith)))

/-- Witness for C10 at strength 0 and values 0 and 255. -/
theorem c10_scurve_antitone_witness :
    (((0 : ℚ) : ℝ) - 1) * 3 + 1 < 0 ∧ applySCurve 255 0 ≤ applySCurve 0 0 :=
  c10_scurve_antitone 0 0 255 (le_refl 0) (by norm_num) (le_refl 0) (by norm_num) (by norm_num)

/-! ### hue2rgb sector lemmas -/

lemma hue2rgb_eq_low (p q t : ℚ) (h0 : 0 ≤ t) (h1 : t ≤ 1/6) :
    hue2rgb p q t = p + (q - p) * 6 * t := by
  simp only [hue2rgb]
  rw [if_neg (not_lt.2 h0), if_neg (not_lt.2 (h1.trans (by norm_num)))]
  rcases lt_or_eq_of_le h1 with h | h
  · rw [if_pos h]
  · subst h
    norm_num
    ring

lemma hue2rgb_eq_q (p q t : ℚ) (h0 : 1/6 ≤ t) (h1 : t ≤ 1/2) :
    hue2rgb p q t = q := by
  simp only [hue2rgb]
  rw [if_neg (not_lt.2 (le_trans (by norm_num) h0)),
    if_neg (not_lt.2 (h1.trans (by norm_num))), if_neg (not_lt.2 h0)]
  rcases lt_or_eq_of_le h1 with h | h
  · rw [if_pos h]
  · subst h
    norm_num
    ring

lemma hue2rgb_eq_mid (p q t : ℚ) (h0 : 1/2 ≤ t) (h1 : t ≤ 2/3) :
    hue2rgb p q t = p + (q - p) * (2/3 - t) * 6 := by
  simp only [hue2rgb]
  rw [if_neg (not_lt.2 (le_trans (by norm_num) h0)),
    if_neg (not_lt.2 (h1.trans (by norm_num))),
    if_neg (not_lt.2 (le_trans (by norm_num) h0)), if_neg (not_lt.2 h0)]
  rcases lt_or_eq_of_le h1 with h | h
  · rw [if_pos h]
  · subst h
    norm_num

lemma hue2rgb_eq_p (p q t : ℚ) (h0 : 2/3 ≤ t) (h1 : t ≤ 1) :
    hue2rgb p q t = p := by
  simp only [hue2rgb]
  rw [if_neg (not_lt.2 (le_trans (by norm_num) h0)), if_neg (not_lt.2 h1),
    if_neg (not_lt.2 (le_trans (by norm_num) h0)),
    if_neg (not_lt.2 (le_trans (by norm_num) h0)), if_neg (not_lt.2 h0)]

lemma hue2rgb_wrap_lo (p q t : ℚ) (h0 : t < 0) (h1 : -1 ≤ t) :
    hue2rgb p q t = hue2rgb p q (t + 1) := by
  simp only [hue2rgb]
  rw [if_pos h0, if_neg (not_lt.2 (by linarith : t + 1 ≤ 1)),
    if_neg (not_lt.2 (by linarith : (0:ℚ) ≤ t + 1)),
    if_neg (not_lt.2 (by linarith : t + 1 ≤ 1))]

lemma hue2rgb_wrap_hi (p q t : ℚ) (h0 : 1 < t) (h1 : t ≤ 2) :
    hue2rgb p q t = hue2rgb p q (t - 1) := by
  simp only [hue2rgb]
  rw [if_neg (not_lt.2 (by linarith : (0:ℚ) ≤ t)), if_pos h0,
    if_neg (not_lt.2 (by linarith : (0:ℚ) ≤ t - 1)),
    if_neg (not_lt.2 (by linarith : t - 1 ≤ 1))]

lemma convex_bound (p q u : ℚ) (hp0 : 0 ≤ p) (hp1 : p ≤ 1) (hq0 : 0 ≤ q) (hq1 : q ≤ 1)
    (hu0 : 0 ≤ u) (hu1 : u ≤ 1) : 0 ≤ p + (q - p) * u ∧ p + (q - p) * u ≤ 1 := by
  constructor
  · nlinarith [mul_nonneg hq0 hu0, mul_nonneg hp0 (sub_nonneg.2 hu1)]
  · nlinarith [mul_nonneg (sub_nonneg.2 hq1) hu0,
      mul_nonneg (sub_nonneg.2 hp1) (sub_nonneg.2 hu1)]

lemma hue2rgb_bounds (p q t : ℚ) (hp0 : 0 ≤ p) (hp1 : p ≤ 1) (hq0 : 0 ≤ q) (hq1 : q ≤ 1)
    (ht0 : -1 ≤ t) (ht1 : t ≤ 2) : 0 ≤ hue2rgb p q t ∧ hue2rgb p q t ≤ 1 := by
  have main : ∀ u : ℚ, 0 ≤ u → u ≤ 1 → 0 ≤ hue2rgb p q u ∧ hue2rgb p q u ≤ 1 := by
    intro u hu0 hu1
    rcases le_or_lt u (1/6) with h | h
    · rw [hue2rgb_eq_low p q u hu0 h]
      have hc := convex_bound p q (6 * u) hp0 hp1 hq0 hq1 (by linarith) (by linarith)
      constructor
      · linarith [hc.1]
      · linarith [hc.2]
    · rcases le_or_lt u (1/2) with h2 | h2
      · rw [hue2rgb_eq_q p q u (le_of_lt h) h2]
        exact ⟨hq0, hq1⟩
      · rcases le_or_lt u (2/3) with h3 | h3
        · rw [hue2rgb_eq_mid p q u (le_of_lt h2) h3]
          have hc := convex_bound p q ((2/3 - u) * 6) hp0 hp1 hq0 hq1
            (by linarith) (by linarith)
          constructor
          · linarith [hc.1]
          · linarith [hc.2]
        · rw [hue2rgb_eq_p p q u (le_of_lt h3) hu1]
          exact ⟨hp0, hp1⟩
  rcases lt_or_le t 0 with h | h
  · rw [hue2rgb_wrap_lo p q t h ht0]
    exact main (t + 1) (by linarith) (by linarith)
  · rcases le_or_lt t 1 with h1 | h1
    · exact main t h h1
    · rw [hue2rgb_wrap_hi p q t h1 ht1]
      exact main (t - 1) (by linarith) (by linarith)

/-! ### C4 : hslToRgb output channels lie in [0, 255] with no clamp -/

lemma round_byte_of_unit (x : ℚ) (h0 : 0 ≤ x) (h1 : x ≤ 1) :
    0 ≤ round (x * 255) ∧ round (x * 255) ≤ 255 := by
  constructor
  · exact round_nonneg (by nlinarith)
  · exact round_le_of_le (by push_cast; nlinarith)

/-- C4: for h in [0,360), s in [0,1], l in [0,1], every channel of
`hslToRgb h s l` lies in [0,255] even though the definition applies no
clamp, because the hue helper stays within [min p q, max p q] and p, q
stay within [0,1]. -/
theorem c4_hslToRgb_bounded (h s l : ℚ) (hh0 : 0 ≤ h) (hh1 : h < 360)
    (hs0 : 0 ≤ s) (hs1 : s ≤ 1) (hl0 : 0 ≤ l) (hl1 : l ≤ 1) :
    (0 ≤ (hslToRgb h s l).r ∧ (hslToRgb h s l).r ≤ 255) ∧
      (0 ≤ (hslToRgb h s l).g ∧ (hslToRgb h s l).g ≤ 255) ∧
      (0 ≤ (hslToRgb h s l).b ∧ (hslToRgb h s l).b ≤ 255) := by
  have hdiv0 : 0 ≤ h / 360 := by positivity
  have hdiv1 : h / 360 < 1 := by linarith
  unfold hslToRgb
  by_cases hzero : s = 0
  · rw [if_pos hzero]
    exact ⟨round_byte_of_unit l hl0 hl1, round_byte_of_unit l hl0 hl1,
      round_byte_of_unit l hl0 hl1⟩
  · rw [if_neg hzero]
    have hqb : 0 ≤ (if l < 1/2 then l * (1 + s) else l + s - l * s) ∧
        (if l < 1/2 then l * (1 + s) else l + s - l * s) ≤ 1 := by
      split_ifs with hl
      · constructor
        · nlinarith [mul_nonneg hl0 (by linarith : (0:ℚ) ≤ 1 + s)]
        · nlinarith [mul_nonneg (by linarith : (0:ℚ) ≤ 1/2 - l) (by linarith : (0:ℚ) ≤ 1 + s)]
      · constructor
        · nlinarith [mul_nonneg hs0 (by linarith : (0:ℚ) ≤ 1 - l)]
        · nlinarith [mul_nonneg (by linarith : (0:ℚ) ≤ 1 - l) (by linarith : (0:ℚ) ≤ 1 - s)]
    have hpb : 0 ≤ 2 * l - (if l < 1/2 then l * (1 + s) else l + s - l * s) ∧
        2 * l - (if l < 1/2 then l * (1 + s) else l + s - l * s) ≤ 1 := by
      split_ifs with hl
      · constructor
        · nlinarith [mul_nonneg hl0 (by linarith : (0:ℚ) ≤ 1 - s)]
        · nlinarith [mul_nonneg hl0 hs0]
      · constructor
        · nlinarith [mul_nonneg (by linarith : (0:ℚ) ≤ 1 - l) (by linarith : (0:ℚ) ≤ 1 - s)]
        · nlinarith [mul_nonneg hs0 (by linarith : (0:ℚ) ≤ 1 - l)]
    refine ⟨?_, ?_, ?_⟩
    · have hb := hue2rgb_bounds _ _ (h / 360 + 1/3) hpb.1 hpb.2 hqb.1 hqb.2
        (by linarith) (by linarith)
      exact round_byte_of_unit _ hb.1 hb.2
    · have hb := hue2rgb_bounds _ _ (h / 360) hpb.1 hpb.2 hqb.1 hqb.2
        (by linarith) (by linarith)
      exact round_byte_of_unit _ hb.1 hb.2
    · have hb := hue2rgb_bounds _ _ (h / 360 - 1/3) hpb.1 hpb.2 hqb.1 hqb.2
        (by linarith) (by linarith)
      exact round_byte_of_unit _ hb.1 hb.2

/-- Witness for C4 at (180, 1/2, 1/2). -/
theorem c4_hslToRgb_bounded_witness :
    (0 ≤ (hslToRgb 180 (1/2) (1/2)).r ∧ (hslToRgb 180 (1/2) (1/2)).r ≤ 255) ∧
      (0 ≤ (hslToRgb 180 (1/2) (1/2)).g ∧ (hslToRgb 180 (1/2) (1/2)).g ≤ 255) ∧
      (0 ≤ (hslToRgb 180 (1/2) (1/2)).b ∧ (hslToRgb 180 (1/2) (1/2)).b ≤ 255) :=
  c4_hslToRgb_bounded 180 (1/2) (1/2) (by norm_num) (by norm_num) (by norm_num)
    (by norm_num) (by norm_num) (by norm_num)

/-! ### C5 : the HSL roundtrip is exact on byte triples -/

lemma hslToRgb_chromatic (H M m : ℚ) (hm0 : 0 ≤ m) (hlt : m < M) (hM1 : M ≤ 1) :
    hslToRgb H (if ((M + m)/2 : ℚ) > 1/2 then (M - m)/(2 - M - m) else (M - m)/(M + m))
      ((M + m)/2)
      = ⟨round (hue2rgb m M (H/360 + 1/3) * 255), round (hue2rgb m M (H/360) * 255),
          round (hue2rgb m M (H/360 - 1/3) * 255)⟩ := by
  have hM0 : 0 < M := lt_of_le_of_lt hm0 hlt
  have hsum : 0 < M + m := by linarith
  have hdiff : 0 < M - m := by linarith
  have h2mm : 0 < 2 - M - m := by linarith
  set S := (if ((M + m)/2 : ℚ) > 1/2 then (M - m)/(2 - M - m) else (M - m)/(M + m)) with hSdef
  have hSpos : 0 < S := by
    rw [hSdef]
    split_ifs <;> exact div_pos hdiff (by linarith)
  simp only [hslToRgb]
  rw [if_neg hSpos.ne']
  have hq : (if (M + m)/2 < 1/2 then (M + m)/2 * (1 + S)
      else (M + m)/2 + S - (M + m)/2 * S) = M := by
    rcases lt_trichotomy ((M + m)/2) (1/2) with hl | hl | hl
    · rw [if_pos hl, hSdef, if_neg (by linarith : ¬ ((M + m)/2 > 1/2))]
      field_simp
      ring
    · rw [if_neg (by linarith : ¬ ((M + m)/2 < 1/2)), hSdef,
        if_neg (by linarith : ¬ ((M + m)/2 > 1/2))]
      have hsum1 : M + m = 1 := by linarith
      field_simp
      nlinarith [hsum1]
    · rw [if_neg (by linarith : ¬ ((M + m)/2 < 1/2)), hSdef, if_pos hl]
      field_simp
      ring
  rw [hq, show 2 * ((M + m)/2) - M = m from by ring]

lemma hsl_roundtrip_exact (r g b : ℤ) (hr0 : 0 ≤ r) (hr1 : r ≤ 255) (hg0 : 0 ≤ g)
    (hg1 : g ≤ 255) (hb0 : 0 ≤ b) (hb1 : b ≤ 255) :
    hslToRgb (rgbToHsl (r:ℚ) (g:ℚ) (b:ℚ)).h (rgbToHsl (r:ℚ) (g:ℚ) (b:ℚ)).s
      (rgbToHsl (r:ℚ) (g:ℚ) (b:ℚ)).l = ⟨r, g, b⟩ := by
  by_cases hach : r = g ∧ g = b
  · obtain ⟨h1, h2⟩ := hach
    subst h1
    subst h2
    simp only [rgbToHsl, max_self, min_self, if_true]
    simp only [hslToRgb, if_true]
    norm_num
  · -- chromatic
    have hrQ0 : (0:ℚ) ≤ (r:ℚ) := by exact_mod_cast hr0
    have hrQ1 : ((r:ℚ)) ≤ 255 := by exact_mod_cast hr1
    have hgQ0 : (0:ℚ) ≤ (g:ℚ) := by exact_mod_cast hg0
    have hgQ1 : ((g:ℚ)) ≤ 255 := by exact_mod_cast hg1
    have hbQ0 : (0:ℚ) ≤ (b:ℚ) := by exact_mod_cast hb0
    have hbQ1 : ((b:ℚ)) ≤ 255 := by exact_mod_cast hb1
    set R := (r:ℚ)/255 with hRdef
    set G := (g:ℚ)/255 with hGdef
    set B := (b:ℚ)/255 with hBdef
    have hR0 : 0 ≤ R := by rw [hRdef]; linarith
    have hR1 : R ≤ 1 := by rw [hRdef]; linarith
    have hG0 : 0 ≤ G := by rw [hGdef]; linarith
    have hG1 : G ≤ 1 := by rw [hGdef]; linarith
    have hB0 : 0 ≤ B := by rw [hBdef]; linarith
    have hB1 : B ≤ 1 := by rw [hBdef]; linarith
    have hroundR : round (R * 255) = r := by
      rw [hRdef, div_mul_cancel₀ _ (by norm_num : (255:ℚ) ≠ 0), round_intCast]
    have hroundG : round (G * 255) = g := by
      rw [hGdef, div_mul_cancel₀ _ (by norm_num : (255:ℚ) ≠ 0), round_intCast]
    have hroundB : round (B * 255) = b := by
      rw [hBdef, div_mul_cancel₀ _ (by norm_num : (255:ℚ) ≠ 0), round_intCast]
    rcases le_or_lt g r with hgr | hgr
    · have hGR : G ≤ R := by
        have h : (g:ℚ) ≤ r := by exact_mod_cast hgr
        rw [hGdef, hRdef]
        linarith
      rcases le_or_lt b r with hbr | hbr
      · have hBR : B ≤ R := by
          have h : (b:ℚ) ≤ r := by exact_mod_cast hbr
          rw [hBdef, hRdef]
          linarith
        rcases le_or_lt b g with hbg | hbg
        · -- case A : b ≤ g ≤ r, max = R, min = B
          have hBG : B ≤ G := by
            have h : (b:ℚ) ≤ g := by exact_mod_cast hbg
            rw [hBdef, hGdef]
            linarith
          rcases le_or_lt r b with hrb | hrb
          · exact absurd ⟨by omega, by omega⟩ hach
          · have hBRlt : B < R := by
              have h : (b:ℚ) < r := by exact_mod_cast hrb
              rw [hBdef, hRdef]
              linarith
            have hmx : max R (max G B) = R := max_eq_left (max_le hGR hBR)
            have hmn : min R (min G B) = B := by
              rw [min_eq_right hBG, min_eq_right hBR]
            simp only [rgbToHsl]
            rw [← hRdef, ← hGdef, ← hBdef, hmx, hmn, if_neg (ne_of_gt hBRlt), if_pos rfl,
              if_neg (not_lt.2 hBG), add_zero]
            dsimp only
            rw [hslToRgb_chromatic ((G - B)/(R - B) * 60) R B hB0 hBRlt hR1]
            have hd : (0:ℚ) < R - B := by linarith
            have he0 : 0 ≤ (G - B)/(R - B) := div_nonneg (by linarith) (by linarith)
            have he1 : (G - B)/(R - B) ≤ 1 := by
              rw [div_le_one hd]
              linarith
            rw [RGBi.mk.injEq]
            refine ⟨?_, ?_, ?_⟩
            · rw [show (G - B)/(R - B) * 60/360 + 1/3 = (G - B)/(R - B)/6 + 1/3 from by ring,
                hue2rgb_eq_q B R ((G - B)/(R - B)/6 + 1/3) (by linarith) (by linarith)]
              exact hroundR
            · rw [show (G - B)/(R - B) * 60/360 = (G - B)/(R - B)/6 from by ring,
                hue2rgb_eq_low B R ((G - B)/(R - B)/6) (by linarith) (by linarith)]
              rw [show B + (R - B) * 6 * ((G - B)/(R - B)/6) = B + (R - B) * ((G - B)/(R - B))
                  from by ring,
                mul_div_cancel₀ _ (ne_of_gt hd)]
              rw [show B + (G - B) = G from by ring]
              exact hroundG
            · rw [show (G - B)/(R - B) * 60/360 - 1/3 = (G - B)/(R - B)/6 - 1/3 from by ring,
                hue2rgb_wrap_lo B R ((G - B)/(R - B)/6 - 1/3) (by linarith) (by linarith),
                show (G - B)/(R - B)/6 - 1/3 + 1 = (G - B)/(R - B)/6 + 2/3 from by ring,
                hue2rgb_eq_p B R ((G - B)/(R - B)/6 + 2/3) (by linarith) (by linarith)]
              exact hroundB
        · -- case B : g < b <= r, max = R, min = G
          have hGB : G < B := by
            have h : (g:ℚ) < b := by exact_mod_cast hbg
            rw [hGdef, hBdef]
            linarith
          have hGRlt : G < R := by
            have h : (g:ℚ) < r := by
              have : (g:ℚ) < b := by exact_mod_cast hbg
              have : (b:ℚ) ≤ r := by exact_mod_cast hbr
              have h2 : (g:ℚ) < b := by exact_mod_cast hbg
              linarith
            rw [hGdef, hRdef]
            linarith
          have hmx : max R (max G B) = R := max_eq_left (max_le hGR hBR)
          have hmn : min R (min G B) = G := by
            rw [min_eq_left hGB.le, min_eq_right hGRlt.le]
          simp only [rgbToHsl]
          rw [← hRdef, ← hGdef, ← hBdef, hmx, hmn, if_neg (ne_of_gt hGRlt), if_pos rfl,
            if_pos hGB]
          dsimp only
          rw [hslToRgb_chromatic (((G - B)/(R - G) + 6) * 60) R G hG0 hGRlt hR1]
          have hd : (0:ℚ) < R - G := by linarith
          have he1 : (G - B)/(R - G) ≤ 0 :=
            le_of_lt (div_neg_of_neg_of_pos (by linarith) hd)
          have he0 : -1 ≤ (G - B)/(R - G) := by
            rw [le_div_iff hd]
            linarith
          rw [RGBi.mk.injEq]
          refine ⟨?_, ?_, ?_⟩
          · rw [show ((G - B)/(R - G) + 6) * 60/360 + 1/3 = (G - B)/(R - G)/6 + 4/3
                from by ring,
              hue2rgb_wrap_hi G R ((G - B)/(R - G)/6 + 4/3) (by linarith) (by linarith),
              show (G - B)/(R - G)/6 + 4/3 - 1 = (G - B)/(R - G)/6 + 1/3 from by ring,
              hue2rgb_eq_q G R ((G - B)/(R - G)/6 + 1/3) (by linarith) (by linarith)]
            exact hroundR
          · rw [show ((G - B)/(R - G) + 6) * 60/360 = (G - B)/(R - G)/6 + 1 from by ring,
              hue2rgb_eq_p G R ((G - B)/(R - G)/6 + 1) (by linarith) (by linarith)]
            exact hroundG
          · rw [show ((G - B)/(R - G) + 6) * 60/360 - 1/3 = (G - B)/(R - G)/6 + 2/3
                from by ring,
              hue2rgb_eq_mid G R ((G - B)/(R - G)/6 + 2/3) (by linarith) (by linarith)]
            rw [show G + (R - G) * (2/3 - ((G - B)/(R - G)/6 + 2/3)) * 6
                = G + (R - G) * ((B - G)/(R - G)) from by ring,
              mul_div_cancel₀ _ (ne_of_gt hd), show G + (B - G) = B from by ring]
            exact hroundB
      · -- case D1 : g <= r < b, max = B, min = G
        have hRB : R < B := by
          have h : (r:ℚ) < b := by exact_mod_cast hbr
          rw [hRdef, hBdef]
          linarith
        have hGB : G < B := by
          have h1 : (g:ℚ) ≤ r := by exact_mod_cast hgr
          have h2 : (r:ℚ) < b := by exact_mod_cast hbr
          rw [hGdef, hBdef]
          linarith
        have hmx : max R (max G B) = B := by
          rw [max_eq_right hGB.le, max_eq_right hRB.le]
        have hmn : min R (min G B) = G := by
          rw [min_eq_left hGB.le, min_eq_right hGR]
        simp only [rgbToHsl]
        rw [← hRdef, ← hGdef, ← hBdef, hmx, hmn, if_neg (ne_of_gt hGB),
          if_neg (ne_of_gt hRB), if_neg (ne_of_gt hGB)]
        dsimp only
        rw [hslToRgb_chromatic (((R - G)/(B - G) + 4) * 60) B G hG0 hGB hB1]
        have hd : (0:ℚ) < B - G := by linarith
        have he0 : 0 ≤ (R - G)/(B - G) := div_nonneg (by linarith) (by linarith)
        have he1 : (R - G)/(B - G) < 1 := by
          rw [div_lt_one hd]
          linarith
        rw [RGBi.mk.injEq]
        refine ⟨?_, ?_, ?_⟩
        · rcases eq_or_lt_of_le he0 with heq | hpos
          · have hRG : R = G := by
              have h0 := heq.symm
              rw [div_eq_zero_iff] at h0
              rcases h0 with h0 | h0
              · linarith
              · exact absurd h0 (ne_of_gt hd)
            rw [show ((R - G)/(B - G) + 4) * 60/360 + 1/3 = (R - G)/(B - G)/6 + 1
                from by ring,
              hue2rgb_eq_p G B ((R - G)/(B - G)/6 + 1) (by linarith) (by linarith)]
            rw [← hRG]
            exact hroundR
          · rw [show ((R - G)/(B - G) + 4) * 60/360 + 1/3 = (R - G)/(B - G)/6 + 1
                from by ring,
              hue2rgb_wrap_hi G B ((R - G)/(B - G)/6 + 1) (by linarith) (by linarith),
              show (R - G)/(B - G)/6 + 1 - 1 = (R - G)/(B - G)/6 from by ring,
              hue2rgb_eq_low G B ((R - G)/(B - G)/6) (by linarith) (by linarith)]
            rw [show G + (B - G) * 6 * ((R - G)/(B - G)/6)
                = G + (B - G) * ((R - G)/(B - G)) from by ring,
              mul_div_cancel₀ _ (ne_of_gt hd), show G + (R - G) = R from by ring]
            exact hroundR
        · rw [show ((R - G)/(B - G) + 4) * 60/360 = (R - G)/(B - G)/6 + 2/3 from by ring,
            hue2rgb_eq_p G B ((R - G)/(B - G)/6 + 2/3) (by linarith) (by linarith)]
          exact hroundG
        · rw [show ((R - G)/(B - G) + 4) * 60/360 - 1/3 = (R - G)/(B - G)/6 + 1/3
              from by ring,
            hue2rgb_eq_q G B ((R - G)/(B - G)/6 + 1/3) (by linarith) (by linarith)]
          exact hroundB
    · -- r < g
      have hRG : R < G := by
        have h : (r:ℚ) < g := by exact_mod_cast hgr
        rw [hRdef, hGdef]
        linarith
      rcases le_or_lt b g with hbg | hbg
      · -- max = G
        have hBG : B ≤ G := by
          have h : (b:ℚ) ≤ g := by exact_mod_cast hbg
          rw [hBdef, hGdef]
          linarith
        have hmx : max R (max G B) = G := by
          rw [max_eq_left hBG, max_eq_right hRG.le]
        rcases le_or_lt r b with hrb | hrb
        · -- case C1 : r <= b <= g, min = R
          have hRB : R ≤ B := by
            have h : (r:ℚ) ≤ b := by exact_mod_cast hrb
            rw [hRdef, hBdef]
            linarith
          have hmn : min R (min G B) = R := by
            rw [min_eq_right hBG, min_eq_left hRB]
          simp only [rgbToHsl]
          rw [← hRdef, ← hGdef, ← hBdef, hmx, hmn, if_neg (ne_of_gt hRG),
            if_neg (ne_of_gt hRG), if_pos rfl]
          dsimp only
          rw [hslToRgb_chromatic (((B - R)/(G - R) + 2) * 60) G R hR0 hRG hG1]
          have hd : (0:ℚ) < G - R := by linarith
          have he0 : 0 ≤ (B - R)/(G - R) := div_nonneg (by linarith) (by linarith)
          have he1 : (B - R)/(G - R) ≤ 1 := by
            rw [div_le_one hd]
            linarith
          rw [RGBi.mk.injEq]
          refine ⟨?_, ?_, ?_⟩
          · rw [show ((B - R)/(G - R) + 2) * 60/360 + 1/3 = (B - R)/(G - R)/6 + 2/3
                from by ring,
              hue2rgb_eq_p R G ((B - R)/(G - R)/6 + 2/3) (by linarith) (by linarith)]
            exact hroundR
          · rw [show ((B - R)/(G - R) + 2) * 60/360 = (B - R)/(G - R)/6 + 1/3 from by ring,
              hue2rgb_eq_q R G ((B - R)/(G - R)/6 + 1/3) (by linarith) (by linarith)]
            exact hroundG
          · rw [show ((B - R)/(G - R) + 2) * 60/360 - 1/3 = (B - R)/(G - R)/6 from by ring,
              hue2rgb_eq_low R G ((B - R)/(G - R)/6) (by linarith) (by linarith)]
            rw [show R + (G - R) * 6 * ((B - R)/(G - R)/6)
                = R + (G - R) * ((B - R)/(G - R)) from by ring,
              mul_div_cancel₀ _ (ne_of_gt hd), show R + (B - R) = B from by ring]
            exact hroundB
        · -- case C2 : b < r < g, min = B
          have hBRlt : B < R := by
            have h : (b:ℚ) < r := by exact_mod_cast hrb
            rw [hBdef, hRdef]
            linarith
          have hBG2 : B < G := by linarith
          have hmn : min R (min G B) = B := by
            rw [min_eq_right hBG2.le, min_eq_right hBRlt.le]
          simp only [rgbToHsl]
          rw [← hRdef, ← hGdef, ← hBdef, hmx, hmn, if_neg (ne_of_gt hBG2),
            if_neg (ne_of_gt hRG), if_pos rfl]
          dsimp only
          rw [hslToRgb_chromatic (((B - R)/(G - B) + 2) * 60) G B hB0 hBG2 hG1]
          have hd : (0:ℚ) < G - B := by linarith
          have heneg : (B - R)/(G - B) < 0 :=
            div_neg_of_neg_of_pos (by linarith) hd
          have he0 : -1 ≤ (B - R)/(G - B) := by
            rw [le_div_iff hd]
            linarith
          rw [RGBi.mk.injEq]
          refine ⟨?_, ?_, ?_⟩
          · rw [show ((B - R)/(G - B) + 2) * 60/360 + 1/3 = (B - R)/(G - B)/6 + 2/3
                from by ring,
              hue2rgb_eq_mid B G ((B - R)/(G - B)/6 + 2/3) (by linarith) (by linarith)]
            rw [show B + (G - B) * (2/3 - ((B - R)/(G - B)/6 + 2/3)) * 6
                = B + (G - B) * ((R - B)/(G - B)) from by ring,
              mul_div_cancel₀ _ (ne_of_gt hd), show B + (R - B) = R from by ring]
            exact hroundR
          · rw [show ((B - R)/(G - B) + 2) * 60/360 = (B - R)/(G - B)/6 + 1/3 from by ring,
              hue2rgb_eq_q B G ((B - R)/(G - B)/6 + 1/3) (by linarith) (by linarith)]
            exact hroundG
          · rw [show ((B - R)/(G - B) + 2) * 60/360 - 1/3 = (B - R)/(G - B)/6 from by ring,
              hue2rgb_wrap_lo B G ((B - R)/(G - B)/6) (by linarith) (by linarith),
              show (B - R)/(G - B)/6 + 1 = (B - R)/(G - B)/6 + 1 from rfl,
              hue2rgb_eq_p B G ((B - R)/(G - B)/6 + 1) (by linarith) (by linarith)]
            exact hroundB
      · -- case D2 : r < g < b, max = B, min = R
        have hGBlt : G < B := by
          have h : (g:ℚ) < b := by exact_mod_cast hbg
          rw [hGdef, hBdef]
          linarith
        have hRBlt : R < B := by linarith
        have hmx : max R (max G B) = B := by
          rw [max_eq_right hGBlt.le, max_eq_right hRBlt.le]
        have hmn : min R (min G B) = R := by
          rw [min_eq_left hGBlt.le, min_eq_left hRG.le]
        simp only [rgbToHsl]
        rw [← hRdef, ← hGdef, ← hBdef, hmx, hmn, if_neg (ne_of_gt hRBlt),
          if_neg (ne_of_gt hRBlt), if_neg (ne_of_gt hGBlt)]
        dsimp only
        rw [hslToRgb_chromatic (((R - G)/(B - R) + 4) * 60) B R hR0 hRBlt hB1]
        have hd : (0:ℚ) < B - R := by linarith
        have heneg : (R - G)/(B - R) ≤ 0 :=
          le_of_lt (div_neg_of_neg_of_pos (by linarith) hd)
        have he0 : -1 ≤ (R - G)/(B - R) := by
          rw [le_div_iff hd]
          linarith
        rw [RGBi.mk.injEq]
        refine ⟨?_, ?_, ?_⟩
        · rw [show ((R - G)/(B - R) + 4) * 60/360 + 1/3 = (R - G)/(B - R)/6 + 1
              from by ring,
            hue2rgb_eq_p R B ((R - G)/(B - R)/6 + 1) (by linarith) (by linarith)]
          exact hroundR
        · rw [show ((R - G)/(B - R) + 4) * 60/360 = (R - G)/(B - R)/6 + 2/3 from by ring,
            hue2rgb_eq_mid R B ((R - G)/(B - R)/6 + 2/3) (by linarith) (by linarith)]
          rw [show R + (B - R) * (2/3 - ((R - G)/(B - R)/6 + 2/3)) * 6
              = R + (B - R) * ((G - R)/(B - R)) from by ring,
            mul_div_cancel₀ _ (ne_of_gt hd), show R + (G - R) = G from by ring]
          exact hroundG
        · rw [show ((R - G)/(B - R) + 4) * 60/360 - 1/3 = (R - G)/(B - R)/6 + 1/3
              from by ring,
            hue2rgb_eq_q R B ((R - G)/(B - R)/6 + 1/3) (by linarith) (by linarith)]
          exact hroundB

/-- C5: for every integer triple in [0,255]^3 the roundtrip
`hslToRgb (rgbToHsl r g b)` reproduces each channel within the claimed
tolerance of 1; in fact the roundtrip is exact. -/
theorem c5_hsl_roundtrip_within_one (r g b : ℤ) (hr0 : 0 ≤ r) (hr1 : r ≤ 255)
    (hg0 : 0 ≤ g) (hg1 : g ≤ 255) (hb0 : 0 ≤ b) (hb1 : b ≤ 255) :
    |(hslToRgb (rgbToHsl (r:ℚ) (g:ℚ) (b:ℚ)).h (rgbToHsl (r:ℚ) (g:ℚ) (b:ℚ)).s
        (rgbToHsl (r:ℚ) (g:ℚ) (b:ℚ)).l).r - r| ≤ 1 ∧
      |(hslToRgb (rgbToHsl (r:ℚ) (g:ℚ) (b:ℚ)).h (rgbToHsl (r:ℚ) (g:ℚ) (b:ℚ)).s
        (rgbToHsl (r:ℚ) (g:ℚ) (b:ℚ)).l).g - g| ≤ 1 ∧
      |(hslToRgb (rgbToHsl (r:ℚ) (g:ℚ) (b:ℚ)).h (rgbToHsl (r:ℚ) (g:ℚ) (b:ℚ)).s
        (rgbToHsl (r:ℚ) (g:ℚ) (b:ℚ)).l).b - b| ≤ 1 := by
  rw [hsl_roundtrip_exact r g b hr0 hr1 hg0 hg1 hb0 hb1]
  norm_num

/-- Witness for C5 at the triple (10, 200, 30). -/
theorem c5_hsl_roundtrip_within_one_witness :
    |(hslToRgb (rgbToHsl ((10:ℤ):ℚ) ((200:ℤ):ℚ) ((30:ℤ):ℚ)).h
        (rgbToHsl ((10:ℤ):ℚ) ((200:ℤ):ℚ) ((30:ℤ):ℚ)).s
        (rgbToHsl ((10:ℤ):ℚ) ((200:ℤ):ℚ) ((30:ℤ):ℚ)).l).r - (10:ℤ)| ≤ 1 ∧
      |(hslToRgb (rgbToHsl ((10:ℤ):ℚ) ((200:ℤ):ℚ) ((30:ℤ):ℚ)).h
        (rgbToHsl ((10:ℤ):ℚ) ((200:ℤ):ℚ) ((30:ℤ):ℚ)).s
        (rgbToHsl ((10:ℤ):ℚ) ((200:ℤ):ℚ) ((30:ℤ):ℚ)).l).g - (200:ℤ)| ≤ 1 ∧
      |(hslToRgb (rgbToHsl ((10:ℤ):ℚ) ((200:ℤ):ℚ) ((30:ℤ):ℚ)).h
        (rgbToHsl ((10:ℤ):ℚ) ((200:ℤ):ℚ) ((30:ℤ):ℚ)).s
        (rgbToHsl ((10:ℤ):ℚ) ((200:ℤ):ℚ) ((30:ℤ):ℚ)).l).b - (30:ℤ)| ≤ 1 :=
  c5_hsl_roundtrip_within_one 10 200 30 (by norm_num) (by norm_num) (by norm_num)
    (by norm_num) (by norm_num) (by norm_num)

/-! ### C7 and C8 : noise reduction machinery -/

lemma nrStep_apply_ne (orig : ℕ → ℤ) (s : ℚ) (w : ℕ) (f : ℕ → ℤ) (t : ℕ × ℕ × ℕ) (j : ℕ)
    (h : (t.1 * w + t.2.1) * 4 + t.2.2 ≠ j) : nrStep orig s w f t j = f j := by
  simp only [nrStep]
  exact Function.update_noteq (Ne.symm h) _ _

lemma foldl_nrStep_not_written (orig : ℕ → ℤ) (s : ℚ) (w : ℕ) (l : List (ℕ × ℕ × ℕ))
    (f : ℕ → ℤ) (j : ℕ) (h : ∀ t ∈ l, (t.1 * w + t.2.1) * 4 + t.2.2 ≠ j) :
    l.foldl (nrStep orig s w) f j = f j := by
  induction l generalizing f with
  | nil => rfl
  | cons t l ih =>
    rw [List.foldl_cons, ih _ (fun u hu => h u (List.mem_cons_of_mem _ hu)),
      nrStep_apply_ne orig s w f t j (h t (List.mem_cons_self _ _))]

lemma foldl_nrStep_write (orig : ℕ → ℤ) (s : ℚ) (w : ℕ) (l1 l2 : List (ℕ × ℕ × ℕ))
    (t : ℕ × ℕ × ℕ) (f : ℕ → ℤ)
    (hf : f ((t.1 * w + t.2.1) * 4 + t.2.2) = orig ((t.1 * w + t.2.1) * 4 + t.2.2))
    (h1 : ∀ u ∈ l1, (u.1 * w + u.2.1) * 4 + u.2.2 ≠ (t.1 * w + t.2.1) * 4 + t.2.2)
    (h2 : ∀ u ∈ l2, (u.1 * w + u.2.1) * 4 + u.2.2 ≠ (t.1 * w + t.2.1) * 4 + t.2.2) :
    (l1 ++ t :: l2).foldl (nrStep orig s w) f ((t.1 * w + t.2.1) * 4 + t.2.2)
      = max 0 (min 255 (round ((1 - s) * (orig ((t.1 * w + t.2.1) * 4 + t.2.2) : ℚ) + s *
          (((orig ((t.1 * w + t.2.1) * 4 - w * 4 + t.2.2) : ℚ)
            + (orig ((t.1 * w + t.2.1) * 4 + w * 4 + t.2.2) : ℚ)
            + (orig ((t.1 * w + t.2.1) * 4 - 4 + t.2.2) : ℚ)
            + (orig ((t.1 * w + t.2.1) * 4 + 4 + t.2.2) : ℚ)) / 4)))) := by
  rw [List.foldl_append, List.foldl_cons,
    foldl_nrStep_not_written orig s w l2 _ _ h2]
  simp only [nrStep]
  rw [Function.update_same,
    foldl_nrStep_not_written orig s w l1 f _ h1, hf]

lemma mem_interiorTriples {w h : ℕ} {t : ℕ × ℕ × ℕ} :
    t ∈ interiorTriples w h ↔
      1 ≤ t.1 ∧ t.1 < h - 1 ∧ 1 ≤ t.2.1 ∧ t.2.1 < w - 1 ∧ t.2.2 < 3 := by
  obtain ⟨y, x, c⟩ := t
  simp only [interiorTriples, List.mem_product, List.mem_map, List.mem_range]
  constructor
  · rintro ⟨⟨a, ha, rfl⟩, ⟨e, he, rfl⟩, hc⟩
    omega
  · rintro ⟨h1, h2, h3, h4, h5⟩
    exact ⟨⟨y - 1, by omega, by omega⟩, ⟨x - 1, by omega, by omega⟩, h5⟩

lemma nodup_interiorTriples (w h : ℕ) : (interiorTriples w h).Nodup := by
  have h1 : ((List.range (h - 2)).map (· + 1)).Nodup :=
    (List.nodup_range _).map (fun a e hae => by omega)
  have h2 : ((List.range (w - 2)).map (· + 1)).Nodup :=
    (List.nodup_range _).map (fun a e hae => by omega)
  exact h1.product (h2.product (List.nodup_range _))

lemma nrIdx_inj {w : ℕ} {u t : ℕ × ℕ × ℕ} (hu1 : u.2.1 < w) (hu2 : u.2.2 < 4)
    (ht1 : t.2.1 < w) (ht2 : t.2.2 < 4)
    (h : (u.1 * w + u.2.1) * 4 + u.2.2 = (t.1 * w + t.2.1) * 4 + t.2.2) : u = t := by
  obtain ⟨uy, ux, uc⟩ := u
  obtain ⟨ty, tx, tc⟩ := t
  simp only at hu1 hu2 ht1 ht2 h
  have hw : 0 < w := by omega
  have hdivw : ∀ a b : ℕ, b < w → (a * w + b) / w = a := by
    intro a b hb
    rw [Nat.add_comm, Nat.mul_comm, Nat.add_mul_div_left _ _ hw, Nat.div_eq_of_lt hb]
    omega
  have hc : uc = tc := by
    have h4 := congrArg (· % 4) h
    simp only at h4
    rwa [Nat.mul_add_mod', Nat.mul_add_mod', Nat.mod_eq_of_lt hu2,
      Nat.mod_eq_of_lt ht2] at h4
  subst hc
  have hX : uy * w + ux = ty * w + tx := by
    have h5 : (uy * w + ux) * 4 = (ty * w + tx) * 4 := by omega
    exact Nat.eq_of_mul_eq_mul_right (by norm_num) h5
  have hx : ux = tx := by
    have h6 := congrArg (· % w) hX
    simp only at h6
    rwa [Nat.mul_add_mod', Nat.mul_add_mod', Nat.mod_eq_of_lt hu1,
      Nat.mod_eq_of_lt ht1] at h6
  subst hx
  have hy : uy = ty := by
    have h7 := congrArg (· / w) hX
    simp only at h7
    rwa [hdivw _ _ hu1, hdivw _ _ ht1] at h7
  subst hy
  rfl

lemma enc_mod {k : ℕ} (a b : ℕ) (hb : b < k) : (a * k + b) % k = b := by
  rw [Nat.mul_add_mod', Nat.mod_eq_of_lt hb]

lemma enc_div {k : ℕ} (hk : 0 < k) (a b : ℕ) (hb : b < k) : (a * k + b) / k = a := by
  rw [Nat.add_comm, Nat.mul_comm, Nat.add_mul_div_left _ _ hk, Nat.div_eq_of_lt hb]
  omega

lemma clamp_eq_self {v : ℤ} (h0 : 0 ≤ v) (h255 : v ≤ 255) : max 0 (min 255 v) = v := by
  rw [min_eq_right h255, max_eq_right h0]

/-- C8: for every interior pixel (y, x) and color channel c, the output of
`applyNoiseReduction` equals round((1-strength)*original + strength*avg)
where avg is the mean of the four 4-connected neighbors read from the
pre-pass snapshot, and every byte outside the interior color bytes (the
one-pixel border and all alpha bytes) is left bit-identical. -/
theorem c8_noise_reduction (data : ℕ → ℤ) (w h : ℕ) (s : ℚ) (y x c j : ℕ)
    (hbytes : ∀ i, 0 ≤ data i ∧ data i ≤ 255) (hs0 : 0 ≤ s) (hs1 : s ≤ 1)
    (hy1 : 1 ≤ y) (hy2 : y < h - 1) (hx1 : 1 ≤ x) (hx2 : x < w - 1) (hc : c < 3)
    (hj : ¬ isInteriorColorIdx w h j) :
    applyNoiseReduction data w h s ((y * w + x) * 4 + c) =
      round ((1 - s) * (data ((y * w + x) * 4 + c) : ℚ) + s *
        (((data (((y - 1) * w + x) * 4 + c) : ℚ) + (data (((y + 1) * w + x) * 4 + c) : ℚ)
          + (data ((y * w + (x - 1)) * 4 + c) : ℚ)
          + (data ((y * w + (x + 1)) * 4 + c) : ℚ)) / 4)) ∧
    applyNoiseReduction data w h s j = data j := by
  have hB : ∀ i, (0:ℚ) ≤ (data i : ℚ) ∧ (data i : ℚ) ≤ 255 := by
    intro i
    constructor
    · exact_mod_cast (hbytes i).1
    · exact_mod_cast (hbytes i).2
  constructor
  · -- the interior write
    have ht : (y, x, c) ∈ interiorTriples w h :=
      mem_interiorTriples.2 ⟨hy1, hy2, hx1, hx2, hc⟩
    obtain ⟨l1, l2, hsplit⟩ := List.append_of_mem ht
    have hnd := nodup_interiorTriples w h
    rw [hsplit, List.nodup_append] at hnd
    obtain ⟨hnd1, hnd2, hdisj⟩ := hnd
    have htl2 : (y, x, c) ∉ l2 := (List.nodup_cons.1 hnd2).1
    have hbnd : ∀ u, u ∈ interiorTriples w h → u.2.1 < w ∧ u.2.2 < 4 := by
      intro u hu
      rw [mem_interiorTriples] at hu
      omega
    have hne1 : ∀ u ∈ l1, (u.1 * w + u.2.1) * 4 + u.2.2 ≠
        ((y, x, c).1 * w + (y, x, c).2.1) * 4 + (y, x, c).2.2 := by
      intro u hu hidx
      have hu' := hbnd u (hsplit ▸ List.mem_append_left _ hu)
      have heq : u = (y, x, c) :=
        nrIdx_inj hu'.1 hu'.2 (by simp only; omega) (by simp only; omega) hidx
      exact hdisj (heq ▸ hu) (List.mem_cons_self _ _)
    have hne2 : ∀ u ∈ l2, (u.1 * w + u.2.1) * 4 + u.2.2 ≠
        ((y, x, c).1 * w + (y, x, c).2.1) * 4 + (y, x, c).2.2 := by
      intro u hu hidx
      have hu' := hbnd u (hsplit ▸ List.mem_append_right _ (List.mem_cons_of_mem _ hu))
      have heq : u = (y, x, c) :=
        nrIdx_inj hu'.1 hu'.2 (by simp only; omega) (by simp only; omega) hidx
      exact htl2 (heq ▸ hu)
    have hkey := foldl_nrStep_write data s w l1 l2 (y, x, c) data rfl hne1 hne2
    simp only at hkey
    unfold applyNoiseReduction
    rw [hsplit, hkey]
    have e1 : (y * w + x) * 4 - w * 4 + c = ((y - 1) * w + x) * 4 + c := by
      obtain ⟨y', rfl⟩ : ∃ y', y = y' + 1 := ⟨y - 1, by omega⟩
      rw [Nat.add_sub_cancel, show (y' + 1) * w = y' * w + w from by ring]
      generalize y' * w = A
      omega
    have e2 : (y * w + x) * 4 + w * 4 + c = ((y + 1) * w + x) * 4 + c := by
      rw [show (y + 1) * w = y * w + w from by ring]
      ring
    have e3 : (y * w + x) * 4 - 4 + c = (y * w + (x - 1)) * 4 + c := by
      obtain ⟨x', rfl⟩ : ∃ x', x = x' + 1 := ⟨x - 1, by omega⟩
      rw [Nat.add_sub_cancel]
      generalize y * w = A
      omega
    have e4 : (y * w + x) * 4 + 4 + c = (y * w + (x + 1)) * 4 + c := by
      ring
    rw [e1, e2, e3, e4]
    have h1s : (0:ℚ) ≤ 1 - s := by linarith
    have havg0 : (0:ℚ) ≤ ((data (((y - 1) * w + x) * 4 + c) : ℚ)
        + (data (((y + 1) * w + x) * 4 + c) : ℚ) + (data ((y * w + (x - 1)) * 4 + c) : ℚ)
        + (data ((y * w + (x + 1)) * 4 + c) : ℚ)) / 4 := by
      have u1 := (hB (((y - 1) * w + x) * 4 + c)).1
      have u2 := (hB (((y + 1) * w + x) * 4 + c)).1
      have u3 := (hB ((y * w + (x - 1)) * 4 + c)).1
      have u4 := (hB ((y * w + (x + 1)) * 4 + c)).1
      linarith
    have havg255 : ((data (((y - 1) * w + x) * 4 + c) : ℚ)
        + (data (((y + 1) * w + x) * 4 + c) : ℚ) + (data ((y * w + (x - 1)) * 4 + c) : ℚ)
        + (data ((y * w + (x + 1)) * 4 + c) : ℚ)) / 4 ≤ 255 := by
      have u1 := (hB (((y - 1) * w + x) * 4 + c)).2
      have u2 := (hB (((y + 1) * w + x) * 4 + c)).2
      have u3 := (hB ((y * w + (x - 1)) * 4 + c)).2
      have u4 := (hB ((y * w + (x + 1)) * 4 + c)).2
      linarith
    apply clamp_eq_self
    · apply round_nonneg
      have p1 := mul_nonneg h1s (hB ((y * w + x) * 4 + c)).1
      have p2 := mul_nonneg hs0 havg0
      linarith
    · apply round_le_of_le
      push_cast
      have p1 := mul_le_mul_of_nonneg_left (hB ((y * w + x) * 4 + c)).2 h1s
      have p2 := mul_le_mul_of_nonneg_left havg255 hs0
      nlinarith
  · -- untouched indices
    unfold applyNoiseReduction
    apply foldl_nrStep_not_written
    intro t ht hidx
    rw [mem_interiorTriples] at ht
    apply hj
    have hw4 : (0:ℕ) < 4 := by norm_num
    have htw : t.2.1 < w := by omega
    have htc : t.2.2 < 4 := by omega
    have hd4 : ((t.1 * w + t.2.1) * 4 + t.2.2) / 4 = t.1 * w + t.2.1 := enc_div hw4 _ _ htc
    have hm4 : ((t.1 * w + t.2.1) * 4 + t.2.2) % 4 = t.2.2 := enc_mod _ _ htc
    have hw0 : 0 < w := by omega
    rw [← hidx]
    refine ⟨?_, ?_, ?_, ?_, ?_⟩
    · rw [hm4]
      omega
    · rw [hd4, enc_mod _ _ htw]
      omega
    · rw [hd4, enc_mod _ _ htw]
      omega
    · rw [hd4, enc_div hw0 _ _ htw]
      omega
    · rw [hd4, enc_div hw0 _ _ htw]
      omega

/-- Witness for C8 on a 3 by 3 constant-100 image with strength 1/2,
at interior pixel (1,1) channel 0 and untouched byte index 0. -/
theorem c8_noise_reduction_witness :
    applyNoiseReduction (fun _ => 100) 3 3 (1/2) ((1 * 3 + 1) * 4 + 0) =
      round ((1 - 1/2) * (((100:ℤ)) : ℚ) + 1/2 *
        (((((100:ℤ)) : ℚ) + (((100:ℤ)) : ℚ) + (((100:ℤ)) : ℚ) + (((100:ℤ)) : ℚ)) / 4)) ∧
    applyNoiseReduction (fun _ => 100) 3 3 (1/2) 0 = 100 :=
  c8_noise_reduction (fun _ => 100) 3 3 (1/2) 1 1 0 0
    (fun _ => ⟨by norm_num, by norm_num⟩) (by norm_num) (by norm_num)
    (by norm_num) (by norm_num) (by norm_num) (by norm_num) (by norm_num)
    (by intro hcontra; exact absurd hcontra.2.1 (by norm_num))

/-- C7: the converted image has the width and height of the input, and the
alpha byte of every pixel is copied through unchanged (the per-pixel loop
copies it, and the optional noise-reduction pass never writes an alpha
byte). -/
theorem c7_dims_and_alpha (img : ImageData) (options : NegativeConversionOptions) (p : ℕ)
    (hp : p < img.width * img.height)
    (ha0 : 0 ≤ img.data (4 * p + 3)) (ha1 : img.data (4 * p + 3) ≤ 255) :
    (convertNegativeToPositive img options).width = img.width ∧
      (convertNegativeToPositive img options).height = img.height ∧
      (convertNegativeToPositive img options).data (4 * p + 3) = img.data (4 * p + 3) := by
  refine ⟨rfl, rfl, ?_⟩
  have hout : ∀ base, convertOutputData img options base (4 * p + 3) = img.data (4 * p + 3) := by
    intro base
    unfold convertOutputData
    have hjlt : 4 * p + 3 < img.width * img.height * 4 := by
      generalize hA : img.width * img.height = A
      rw [hA] at hp
      omega
    rw [if_pos hjlt]
    have hj4 : (4 * p + 3) % 4 = 3 := by omega
    simp only [hj4]
    norm_num
    exact toUint8Clamp_intCast _ ha0 ha1
  simp only [convertNegativeToPositive]
  by_cases hbig : 200 < img.width ∧ 200 < img.height
  · rw [if_pos hbig]
    unfold applyNoiseReduction
    rw [foldl_nrStep_not_written _ _ _ _ _ _ ?hne, hout]
    case hne =>
      intro t ht heq
      rw [mem_interiorTriples] at ht
      have hmod := congrArg (· % 4) heq
      simp only at hmod
      rw [enc_mod _ _ (by omega : t.2.2 < 4)] at hmod
      omega
  · rw [if_neg hbig, hout]

/-- Witness for C7 on a 1 by 1 image with alpha byte 200 and default
options. -/
theorem c7_dims_and_alpha_witness :
    (convertNegativeToPositive ⟨1, 1, fun j => if j = 3 then 200 else 7⟩ {}).width = 1 ∧
      (convertNegativeToPositive ⟨1, 1, fun j => if j = 3 then 200 else 7⟩ {}).height = 1 ∧
      (convertNegativeToPositive ⟨1, 1, fun j => if j = 3 then 200 else 7⟩ {}).data
        (4 * 0 + 3) = (fun j => if j = 3 then (200 : ℤ) else 7) (4 * 0 + 3) :=
  c7_dims_and_alpha ⟨1, 1, fun j => if j = 3 then 200 else 7⟩ {} 0 (by norm_num)
    (by decide) (by decide)

/-! ### C1 : neutral options do not disable the cyan stage -/

lemma processPixel_c1 (base : RGBq) (pr pg pb : ℤ)
    (hr0 : 0 ≤ pr) (hr1 : pr ≤ 255) (hg0 : 0 ≤ pg) (hg1 : pg ≤ 255)
    (hb0 : 0 ≤ pb) (hb1 : pb ≤ 255)
    (hgate : ¬ ((255 - (pg:ℚ) > 255 - (pr:ℚ) ∧ 255 - (pb:ℚ) > 255 - (pr:ℚ) ∧
        |255 - (pg:ℚ) - (255 - (pb:ℚ))| < 50) ∧
      ((255 - (pg:ℚ) + (255 - (pb:ℚ))) / 2 > (255 - (pr:ℚ)) * 1.3 ∧
        255 - (pg:ℚ) > 100 ∧ 255 - (pb:ℚ) > 100) ∧
      (150 < (rgbToHsl (255 - (pr:ℚ)) (255 - (pg:ℚ)) (255 - (pb:ℚ))).h ∧
        (rgbToHsl (255 - (pr:ℚ)) (255 - (pg:ℚ)) (255 - (pb:ℚ))).h < 210))) :
    processPixel c1Options base pr pg pb = (255 - (pr:ℚ), 255 - (pg:ℚ), 255 - (pb:ℚ)) := by
  have er : max 0 (min 255 (255 - (pr:ℚ))) = 255 - (pr:ℚ) := by
    have h1 : (pr:ℚ) ≤ 255 := by exact_mod_cast hr1
    have h2 : (0:ℚ) ≤ (pr:ℚ) := by exact_mod_cast hr0
    rw [min_eq_right (by linarith), max_eq_right (by linarith)]
  have eg : max 0 (min 255 (255 - (pg:ℚ))) = 255 - (pg:ℚ) := by
    have h1 : (pg:ℚ) ≤ 255 := by exact_mod_cast hg1
    have h2 : (0:ℚ) ≤ (pg:ℚ) := by exact_mod_cast hg0
    rw [min_eq_right (by linarith), max_eq_right (by linarith)]
  have eb : max 0 (min 255 (255 - (pb:ℚ))) = 255 - (pb:ℚ) := by
    have h1 : (pb:ℚ) ≤ 255 := by exact_mod_cast hb1
    have h2 : (0:ℚ) ≤ (pb:ℚ) := by exact_mod_cast hb0
    rw [min_eq_right (by linarith), max_eq_right (by linarith)]
  simp only [processPixel, c1Options, subtractAmount, mul_zero, sub_zero,
    if_neg (show ¬ ((1:ℚ) ≠ 1) from by norm_num)]
  rw [er, eg, eb]
  by_cases hA : (255 - (pg:ℚ) > 255 - (pr:ℚ) ∧ 255 - (pb:ℚ) > 255 - (pr:ℚ) ∧
      |255 - (pg:ℚ) - (255 - (pb:ℚ))| < 50)
  · rw [if_pos hA]
    by_cases hB : ((255 - (pg:ℚ) + (255 - (pb:ℚ))) / 2 > (255 - (pr:ℚ)) * 1.3 ∧
        255 - (pg:ℚ) > 100 ∧ 255 - (pb:ℚ) > 100)
    · rw [if_pos hB, if_neg (fun hC => hgate ⟨hA, hB, hC⟩)]
    · rw [if_neg hB]
  · rw [if_neg hA]

lemma toUint8Clamp_inv (z : ℤ) (h0 : 0 ≤ z) (h1 : z ≤ 255) :
    toUint8Clamp (255 - (z:ℚ)) = 255 - z := by
  have h : (255 - (z:ℚ)) = (((255 - z : ℤ) : ℚ)) := by push_cast; ring
  rw [h, toUint8Clamp_intCast _ (by omega) (by omega)]

/-- C1 (amended): with channelAdjustments all 1.0, contrastBoost 1.0 and
baseSubtractionOpacity 0, and when the noise-reduction pass is skipped
(width or height at most 200), every pixel whose inverted value fails at
least one of the step-5 cyan gates comes out as the plain inversion
255 - c in all three color channels; pixels passing all the gates
additionally receive the cyan correction, so the original claim fails for
them (see the counterexample). -/
theorem c1_inversion_when_not_cyan (img : ImageData) (p c : ℕ)
    (hsmall : ¬ (200 < img.width ∧ 200 < img.height))
    (hp : p < img.width * img.height) (hc : c < 3)
    (hbytes : ∀ i, 0 ≤ img.data i ∧ img.data i ≤ 255)
    (hgate : ¬ ((255 - ((img.data (4 * p + 1)):ℚ) > 255 - ((img.data (4 * p)):ℚ) ∧
        255 - ((img.data (4 * p + 2)):ℚ) > 255 - ((img.data (4 * p)):ℚ) ∧
        |255 - ((img.data (4 * p + 1)):ℚ) - (255 - ((img.data (4 * p + 2)):ℚ))| < 50) ∧
      ((255 - ((img.data (4 * p + 1)):ℚ) + (255 - ((img.data (4 * p + 2)):ℚ))) / 2 >
          (255 - ((img.data (4 * p)):ℚ)) * 1.3 ∧
        255 - ((img.data (4 * p + 1)):ℚ) > 100 ∧ 255 - ((img.data (4 * p + 2)):ℚ) > 100) ∧
      (150 < (rgbToHsl (255 - ((img.data (4 * p)):ℚ)) (255 - ((img.data (4 * p + 1)):ℚ))
          (255 - ((img.data (4 * p + 2)):ℚ))).h ∧
        (rgbToHsl (255 - ((img.data (4 * p)):ℚ)) (255 - ((img.data (4 * p + 1)):ℚ))
          (255 - ((img.data (4 * p + 2)):ℚ))).h < 210))) :
    (convertNegativeToPositive img c1Options).data (4 * p + c) =
      255 - img.data (4 * p + c) := by
  simp only [convertNegativeToPositive]
  rw [if_neg hsmall]
  unfold convertOutputData
  have hjlt : 4 * p + c < img.width * img.height * 4 := by
    generalize hA : img.width * img.height = A
    rw [hA] at hp
    omega
  rw [if_pos hjlt]
  have hdiv : (4 * p + c) / 4 = p := by omega
  rw [hdiv]
  dsimp only
  have hpx := processPixel_c1 (estimateFilmBase img c1Options) (img.data (4 * p))
    (img.data (4 * p + 1)) (img.data (4 * p + 2)) (hbytes _).1 (hbytes _).2
    (hbytes _).1 (hbytes _).2 (hbytes _).1 (hbytes _).2 hgate
  rw [hpx]
  interval_cases c
  · have hm : (4 * p + 0) % 4 = 0 := by omega
    rw [hm]
    norm_num
    exact toUint8Clamp_inv _ (hbytes _).1 (hbytes _).2
  · have hm : (4 * p + 1) % 4 = 1 := by omega
    rw [hm]
    norm_num
    exact toUint8Clamp_inv _ (hbytes _).1 (hbytes _).2
  · have hm : (4 * p + 2) % 4 = 2 := by omega
    rw [hm]
    norm_num
    exact toUint8Clamp_inv _ (hbytes _).1 (hbytes _).2

/-- C1 counterexample: the 1 by 1 image with pixel (205, 55, 55, 255) under
the C1 options produces output channel r = 100, not the plain inversion
255 - 205 = 50: the inverted pixel (50, 200, 200) passes all the cyan
gates and is recolored by the step-5 correction. -/
theorem c1_counterexample :
    (convertNegativeToPositive ⟨1, 1, c1Pixels⟩ c1Options).data 0 = 100 ∧
      (convertNegativeToPositive ⟨1, 1, c1Pixels⟩ c1Options).data 0 ≠
        255 - c1Pixels 0 := by
  have hhsl : rgbToHsl 50 200 200 = ⟨180, 3/5, 25/51⟩ := by
    norm_num [rgbToHsl, max_def, min_def]
  have hrgb : hslToRgb 190 (12/25) (301/510) = ⟨100, 184, 201⟩ := by
    norm_num [hslToRgb, hue2rgb]
    refine ⟨round_eq_of_bounds _ 100 (by norm_num) (by norm_num),
      round_eq_of_bounds _ 184 (by norm_num) (by norm_num),
      round_eq_of_bounds _ 201 (by norm_num) (by norm_num)⟩
  have hpx : processPixel c1Options ⟨220, 150, 130⟩ 205 55 55 = (100, 184, 201) := by
    simp only [processPixel, c1Options, subtractAmount]
    norm_num
    rw [hhsl]
    norm_num [min_def]
    rw [hrgb]
    norm_num
  have hbase : estimateFilmBase ⟨1, 1, c1Pixels⟩ c1Options = ⟨220, 150, 130⟩ := by decide
  have hout : (convertNegativeToPositive ⟨1, 1, c1Pixels⟩ c1Options).data 0 = 100 := by
    simp only [convertNegativeToPositive]
    rw [if_neg (by norm_num : ¬ ((200:ℕ) < 1 ∧ (200:ℕ) < 1))]
    unfold convertOutputData
    norm_num [c1Pixels]
    rw [hbase, hpx]
    norm_num
    rw [show (100:ℚ) = ((100:ℤ):ℚ) from by norm_num,
      toUint8Clamp_intCast _ (by norm_num) (by norm_num)]
  refine ⟨hout, ?_⟩
  rw [hout]
  norm_num [c1Pixels]

/-- Witness for the amended C1 on a 1 by 1 all-zero image, whose inverted
pixel (255, 255, 255) fails the first cyan gate. -/
theorem c1_inversion_when_not_cyan_witness :
    (convertNegativeToPositive ⟨1, 1, fun _ => 0⟩ c1Options).data (4 * 0 + 0) = 255 - 0 :=
  c1_inversion_when_not_cyan ⟨1, 1, fun _ => 0⟩ 0 0 (by norm_num) (by norm_num)
    (by norm_num) (fun _ => ⟨le_refl 0, by norm_num⟩) (by norm_num)
